import Mathlib

/-!
# Verification of the logosaurus structured-logging core

This file gives a shallow embedding, in Lean 4, of the two halves of the
logosaurus repository:

* the CLI pretty-printer (`src/cli/pretty-print.ts`): a stateful line
  assembler over text chunks and a record renderer that parses each line
  as JSON and either pretty-prints a well-shaped log record or passes the
  line through verbatim;
* the `Logger` core (`mod.ts`): level ranking and gating, record assembly,
  and the default JSON value normalizer.  The `mod.ts` source itself is not
  part of the source tree given here (only its test suite
  `src/mod_test.ts` is), so those definitions are modelled from the
  specification and cross-checked against the expectations recorded in
  `src/mod_test.ts`.

JavaScript strings are modelled as Lean `String` / `List Char`; JavaScript
numbers are modelled as `Int` (every numeric value exercised by the claims
is integral); JSON values are modelled by the inductive type `JSONValue`
below.  ANSI color helpers are treated as the identity on text, matching
the specification's stance that decoration never affects semantic content.
-/

namespace Logosaurus

/-! ## JSON values

A model of the values produced by JavaScript's `JSON.parse`: objects keep
their fields in insertion order as an association list (duplicate keys may
appear in the parse tree; property access resolves to the last
occurrence, as `JSON.parse` does). -/

inductive JSONValue where
  | null
  | bool (b : Bool)
  | num (n : Int)
  | str (s : String)
  | arr (elems : List JSONValue)
  | obj (fields : List (String × JSONValue))

/-! ## Line assembly (`main` in `src/cli/pretty-print.ts`)

The source keeps a `partial` buffer; on each chunk it appends the decoded
text, splits on `"\n"`, pops the last piece back into `partial` and emits
the other pieces in order.  `splitNl` models JavaScript's
`String.prototype.split("\n")`, which always returns a non-empty array. -/

def splitNl : List Char → List (List Char)
  | [] => [[]]
  | c :: cs =>
    if c = '\n' then [] :: splitNl cs
    else
      match splitNl cs with
      | [] => [[c]]
      | h :: t => (c :: h) :: t

/-- One loop iteration of `main`: `partial += text; lines = partial.split("\n");
partial = lines.pop() ?? ""`; the remaining pieces are emitted in order. -/
def feedChunk (pending chunk : List Char) : List (List Char) × List Char :=
  let pieces := splitNl (pending ++ chunk)
  (pieces.dropLast, pieces.getLastD [])

/-- The chunk loop of `main`, threading the emitted lines and the pending
buffer through a sequence of chunks. -/
def runAssembler : List (List Char) × List Char → List (List Char) → List (List Char) × List Char
  | st, [] => st
  | (emitted, pending), chunk :: rest =>
    let (ls, pending') := feedChunk pending chunk
    runAssembler (emitted ++ ls, pending') rest

/-- All lines emitted by `main` over a whole stream of chunks; at
end-of-stream the pending buffer is dropped without being emitted. -/
def assembleLines (chunks : List (List Char)) : List (List Char) :=
  (runAssembler ([], []) chunks).1

/-- String-level wrapper for `assembleLines`. -/
def assembleStrings (chunks : List String) : List String :=
  (assembleLines (chunks.map String.toList)).map fun l => String.mk l

/-- Totalized last element of a list of lines (`lines.pop() ?? ""` returns the
last element of a non-empty JavaScript array); used in assembler proofs. -/
def lastOf : List (List Char) → List Char
  | [] => []
  | [x] => x
  | _ :: x :: xs => lastOf (x :: xs)

/-- Merge a pending prefix into the first piece of a split; describes how
`splitNl` acts on an append.  (Proof support for the assembler theorems.) -/
def joinFirst (p : List Char) : List (List Char) → List (List Char)
  | [] => [p]
  | h :: t => (p ++ h) :: t

/-! ## Character classes and decimal/hex digits -/

/-- JSON whitespace (space, tab, line feed, carriage return). -/
def isWsC (c : Char) : Bool :=
  decide (c.toNat = 32 ∨ c.toNat = 9 ∨ c.toNat = 10 ∨ c.toNat = 13)

def skipWs (s : List Char) : List Char := s.dropWhile isWsC

/-- ASCII decimal digit `'0'..'9'`. -/
def isDigitC (c : Char) : Bool := decide (48 ≤ c.toNat ∧ c.toNat ≤ 57)

/-- Numeric value of an ASCII decimal digit. -/
def digVal (c : Char) : Nat := c.toNat - 48

/-- Value of a hexadecimal digit (`0-9`, `a-f`, `A-F`), as accepted in a JSON
`\uXXXX` escape. -/
def hexVal (c : Char) : Option Nat :=
  if isDigitC c then some (digVal c)
  else if decide (97 ≤ c.toNat ∧ c.toNat ≤ 102) then some (c.toNat - 87)
  else if decide (65 ≤ c.toNat ∧ c.toNat ≤ 70) then some (c.toNat - 55)
  else none

/-- Decimal digits of a natural number, most significant first (the canonical
form printed by JavaScript for non-negative integers). -/
def natDigits (n : Nat) : List Char :=
  if _h : n < 10 then [Nat.digitChar n]
  else natDigits (n / 10) ++ [Nat.digitChar (n % 10)]
  termination_by n
  decreasing_by exact Nat.div_lt_self (by omega) (by omega)

/-- Decimal rendering of an integer, as JavaScript prints an integral number. -/
def charsOfInt (n : Int) : List Char :=
  if n < 0 then '-' :: natDigits (-n).toNat else natDigits n.toNat

/-- Decimal rendering of an integer as a `String`. -/
def intToString (n : Int) : String := String.mk (charsOfInt n)

/-! ## JSON string escaping (as produced by `JSON.stringify`) -/

/-- How `JSON.stringify` renders one character inside a string literal:
quote and backslash get two-character escapes, the named control characters
get `\b \f \n \r \t`, any other control character gets `\u00XX` (lowercase
hex), everything else is emitted verbatim. -/
def encChar (c : Char) : List Char :=
  if c = '"' then ['\\', '"']
  else if c = '\\' then ['\\', '\\']
  else if c = '\x08' then ['\\', 'b']
  else if c = '\x0c' then ['\\', 'f']
  else if c = '\n' then ['\\', 'n']
  else if c = '\r' then ['\\', 'r']
  else if c = '\t' then ['\\', 't']
  else if decide (c.toNat < 32) then
    ['\\', 'u', '0', '0', Nat.digitChar (c.toNat / 16), Nat.digitChar (c.toNat % 16)]
  else [c]

/-- Body of a JSON string literal (without the delimiting quotes). -/
def encStrBody (s : String) : List Char := s.data.flatMap encChar

/-- A JSON string literal with its delimiting quotes. -/
def encStr (s : String) : List Char := '"' :: encStrBody s ++ ['"']

/-! ## Compact JSON printing (`JSON.stringify(v)`) -/

mutual

/-- Compact (single-line) JSON rendering of a value, as `JSON.stringify`
produces for the wire format: no whitespace, `","` and `":"` separators. -/
def charsOfJSON : JSONValue → List Char
  | .null => "null".data
  | .bool true => "true".data
  | .bool false => "false".data
  | .num n => charsOfInt n
  | .str s => encStr s
  | .arr xs => '[' :: charsArrItems xs ++ [']']
  | .obj fs => '{' :: charsObjItems fs ++ ['}']

/-- Comma-separated renderings of array elements. -/
def charsArrItems : List JSONValue → List Char
  | [] => []
  | [x] => charsOfJSON x
  | x :: y :: ys => charsOfJSON x ++ ',' :: charsArrItems (y :: ys)

/-- Comma-separated renderings of object members (`"key":value`). -/
def charsObjItems : List (String × JSONValue) → List Char
  | [] => []
  | [f] => encStr f.1 ++ ':' :: charsOfJSON f.2
  | f :: g :: gs => encStr f.1 ++ ':' :: charsOfJSON f.2 ++ ',' :: charsObjItems (g :: gs)

end

/-- `JSON.stringify(v)` as a `String`. -/
def stringifyCompact (v : JSONValue) : String := String.mk (charsOfJSON v)

/-! ## Parsing depth measure

A measure of a JSON value counting one unit per value and per list step:
the recursion depth budget a parser needs.  (Scalar leaves count 1
regardless of their magnitude, unlike the automatically derived `sizeOf`.) -/

mutual

def sizeJ : JSONValue → Nat
  | .arr xs => 1 + sizeJList xs
  | .obj fs => 1 + sizeJFields fs
  | _ => 1

def sizeJList : List JSONValue → Nat
  | [] => 0
  | x :: xs => 1 + sizeJ x + sizeJList xs

def sizeJFields : List (String × JSONValue) → Nat
  | [] => 0
  | f :: fs => 1 + sizeJ f.2 + sizeJFields fs

end

/-! ## Pretty JSON printing (`JSON.stringify(v, null, 2)`)

The renderer prints the context object with a two-space indent; this models
the exact text `JSON.stringify(value, null, 2)` produces. -/

def indentSpaces (n : Nat) : List Char := List.replicate n ' '

mutual

/-- `JSON.stringify(v, null, 2)` at a given current indent depth. -/
def prettyChars : JSONValue → Nat → List Char
  | .arr [], _ => ['[', ']']
  | .arr (x :: xs), ind =>
    '[' :: '\n' :: indentSpaces (ind + 2) ++ prettyChars x (ind + 2) ++
      prettyRestArr xs (ind + 2) ++ '\n' :: indentSpaces ind ++ [']']
  | .obj [], _ => ['{', '}']
  | .obj (f :: fs), ind =>
    '{' :: '\n' :: indentSpaces (ind + 2) ++ encStr f.1 ++ ':' :: ' ' ::
      prettyChars f.2 (ind + 2) ++ prettyRestObj fs (ind + 2) ++
      '\n' :: indentSpaces ind ++ ['}']
  | v, _ => charsOfJSON v

/-- Remaining array elements, each on its own indented line. -/
def prettyRestArr : List JSONValue → Nat → List Char
  | [], _ => []
  | x :: xs, ind =>
    ',' :: '\n' :: indentSpaces ind ++ prettyChars x ind ++ prettyRestArr xs ind

/-- Remaining object members, each on its own indented line. -/
def prettyRestObj : List (String × JSONValue) → Nat → List Char
  | [], _ => []
  | f :: fs, ind =>
    ',' :: '\n' :: indentSpaces ind ++ encStr f.1 ++ ':' :: ' ' ::
      prettyChars f.2 ind ++ prettyRestObj fs ind

end

/-- `JSON.stringify(v, null, 2)` as a `String`. -/
def prettyStringify (v : JSONValue) : String := String.mk (prettyChars v 0)

/-! ## JSON parsing (`JSON.parse`)

A recursive-descent model of `JSON.parse` over the character list of a
line.  Parsing is fuel-bounded (the fuel only limits nesting depth; the
top-level entry point supplies more fuel than any input can need).
Numbers are modelled as integers, matching the integer model of
JavaScript numbers used throughout this file. -/

/-- Prepend a character to the first component of a parser result. -/
def consFst (c : Char) (p : List Char × List Char) : List Char × List Char :=
  (c :: p.1, p.2)

/-- Parse the body of a JSON string literal after the opening quote, up to
and including the closing quote; returns the decoded characters and the
rest of the input.  Handles the short escapes, `\uXXXX`, and rejects raw
control characters, as `JSON.parse` does. -/
def parseStrBody : List Char → Option (List Char × List Char)
  | [] => none
  | c :: cs =>
    if c = '"' then some ([], cs)
    else if c = '\\' then
      match cs with
      | [] => none
      | e :: cs2 =>
        if e = '"' then Option.map (consFst '"') (parseStrBody cs2)
        else if e = '\\' then Option.map (consFst '\\') (parseStrBody cs2)
        else if e = '/' then Option.map (consFst '/') (parseStrBody cs2)
        else if e = 'b' then Option.map (consFst '\x08') (parseStrBody cs2)
        else if e = 'f' then Option.map (consFst '\x0c') (parseStrBody cs2)
        else if e = 'n' then Option.map (consFst '\n') (parseStrBody cs2)
        else if e = 'r' then Option.map (consFst '\r') (parseStrBody cs2)
        else if e = 't' then Option.map (consFst '\t') (parseStrBody cs2)
        else if e = 'u' then
          match cs2 with
          | h1 :: h2 :: h3 :: h4 :: rest =>
            match hexVal h1, hexVal h2, hexVal h3, hexVal h4 with
            | some v1, some v2, some v3, some v4 =>
              Option.map (consFst (Char.ofNat (((v1 * 16 + v2) * 16 + v3) * 16 + v4)))
                (parseStrBody rest)
            | _, _, _, _ => none
          | _ => none
        else none
    else if decide (c.toNat < 32) then none
    else Option.map (consFst c) (parseStrBody cs)

/-- Accumulate leading decimal digits into `acc`; stops at the first
non-digit. -/
def parseNatAux : List Char → Nat → Nat × List Char
  | [], acc => (acc, [])
  | c :: cs, acc =>
    if isDigitC c then parseNatAux cs (acc * 10 + digVal c) else (acc, c :: cs)

/-- Parse a non-empty run of decimal digits. -/
def parseNat : List Char → Option (Nat × List Char)
  | [] => none
  | c :: cs => if isDigitC c then some (parseNatAux (c :: cs) 0) else none

/-- The input does not continue with a digit (so a just-parsed number
cannot greedily swallow what follows). -/
def headNotDigit : List Char → Prop
  | [] => True
  | c :: _ => isDigitC c = false

/-- Whether the input starts with the given character. -/
def headIs : List Char → Char → Bool
  | [], _ => false
  | c :: _, d => c = d

mutual

/-- Parse one JSON value (with optional leading whitespace). -/
def parseValue : Nat → List Char → Option (JSONValue × List Char)
  | 0, _ => none
  | fuel + 1, s =>
    match skipWs s with
    | [] => none
    | c :: cs =>
      if c = 'n' then
        match cs with
        | 'u' :: 'l' :: 'l' :: rest => some (.null, rest)
        | _ => none
      else if c = 't' then
        match cs with
        | 'r' :: 'u' :: 'e' :: rest => some (.bool true, rest)
        | _ => none
      else if c = 'f' then
        match cs with
        | 'a' :: 'l' :: 's' :: 'e' :: rest => some (.bool false, rest)
        | _ => none
      else if c = '"' then
        match parseStrBody cs with
        | some (body, rest) => some (.str (String.mk body), rest)
        | none => none
      else if c = '-' then
        match parseNat cs with
        | some (n, rest) => some (.num (-(n : Int)), rest)
        | none => none
      else if isDigitC c then
        match parseNat (c :: cs) with
        | some (n, rest) => some (.num (n : Int), rest)
        | none => none
      else if c = '[' then
        (if headIs (skipWs cs) ']' then some (.arr [], (skipWs cs).tail)
         else parseItems fuel (skipWs cs))
      else if c = '{' then
        (if headIs (skipWs cs) '}' then some (.obj [], (skipWs cs).tail)
         else parseMembers fuel (skipWs cs))
      else none

/-- Parse the elements of a non-empty array, consuming the closing `]`. -/
def parseItems : Nat → List Char → Option (JSONValue × List Char)
  | 0, _ => none
  | fuel + 1, s =>
    match parseValue fuel s with
    | some (v, rest) =>
      match skipWs rest with
      | ',' :: rest2 =>
        (match parseItems fuel (skipWs rest2) with
         | some (.arr xs, rest3) => some (.arr (v :: xs), rest3)
         | _ => none)
      | ']' :: rest2 => some (.arr [v], rest2)
      | _ => none
    | none => none

/-- Parse the members of a non-empty object, consuming the closing `}`. -/
def parseMembers : Nat → List Char → Option (JSONValue × List Char)
  | 0, _ => none
  | fuel + 1, s =>
    match s with
    | '"' :: cs =>
      (match parseStrBody cs with
       | some (key, rest) =>
         (match skipWs rest with
          | ':' :: rest2 =>
            (match parseValue fuel rest2 with
             | some (v, rest3) =>
               (match skipWs rest3 with
                | ',' :: rest4 =>
                  (match parseMembers fuel (skipWs rest4) with
                   | some (.obj fs, rest5) => some (.obj ((String.mk key, v) :: fs), rest5)
                   | _ => none)
                | '}' :: rest4 => some (.obj [(String.mk key, v)], rest4)
                | _ => none)
             | none => none)
          | _ => none)
       | none => none)
    | _ => none

end

/-- `JSON.parse` on a character list: parse one value, then require only
trailing whitespace. -/
def parseJSONChars (s : List Char) : Option JSONValue :=
  match parseValue (s.length + 1) s with
  | some (v, rest) => if skipWs rest = [] then some v else none
  | none => none

/-- `JSON.parse` on a line of text (`none` models a thrown `SyntaxError`). -/
def parseJSON (s : String) : Option JSONValue := parseJSONChars s.data

/-! ## The record renderer (`prettyPrintLogObject` in `src/cli/pretty-print.ts`)

ANSI color helpers (`gray`, `blue`, ..., from `@std/fmt/colors`) are
modelled as the identity on text: the specification treats decoration as
never affecting semantic content, and every claim about the renderer is
stated "decoration aside". -/

/-- Property access on a parsed JSON object: with duplicate keys the last
occurrence wins, as in the object `JSON.parse` builds. -/
def lookupLast (fs : List (String × JSONValue)) (k : String) : Option JSONValue :=
  fs.foldl (fun acc f => if f.1 = k then some f.2 else acc) none

/-- Field access on a parsed JSON value (`none` off objects). -/
def jfield : JSONValue → String → Option JSONValue
  | .obj fs, k => lookupLast fs k
  | _, _ => none

/-- `typeof x === "string"` for a (possibly missing) field value. -/
def isStrVal : Option JSONValue → Bool
  | some (.str _) => true
  | _ => false

/-- `typeof x === "number"` for a (possibly missing) field value. -/
def isNumVal : Option JSONValue → Bool
  | some (.num _) => true
  | _ => false

/-- `typeof x === "object" && x !== null` for a (possibly missing) field
value: among JSON values this accepts objects and arrays and rejects
`null`, other primitives, and absence. -/
def isObjVal : Option JSONValue → Bool
  | some (.obj _) => true
  | some (.arr _) => true
  | _ => false

/-- `isLogObject` from `src/cli/pretty-print.ts`: the parsed value is a
non-null object with `level`/`namespace`/`message` strings, `level_n` a
number, and `context` a non-null object. -/
def isLogObject (v : JSONValue) : Bool :=
  match v with
  | .obj fs =>
    isStrVal (lookupLast fs "level") && isNumVal (lookupLast fs "level_n") &&
      isStrVal (lookupLast fs "namespace") && isStrVal (lookupLast fs "message") &&
      isObjVal (lookupLast fs "context")
  | _ => false

/-- The severity tag prepended by the `switch (json.level)` in
`prettyPrintLogObject`; an unrecognized level gets no tag. -/
def levelTag : String → String
  | "trace" => "TRACE > "
  | "debug" => "DEBUG > "
  | "info" => " INFO > "
  | "warn" => " WARN > "
  | "error" => "ERROR > "
  | "fatal" => "FATAL > "
  | _ => ""

/-- A field that `isLogObject` certified as a string. -/
def getStrField (v : JSONValue) (k : String) : String :=
  match jfield v k with
  | some (.str s) => s
  | _ => ""

/-- The `context` field of a certified record. -/
def getCtx (v : JSONValue) : JSONValue :=
  match jfield v "context" with
  | some c => c
  | none => .null

/-- The text `prettyPrintLogObject` writes for a certified record: severity
tag, bracketed namespace, message, then the context pretty-printed with a
two-space indent on the following lines. -/
def renderLogObject (v : JSONValue) : String :=
  levelTag (getStrField v "level") ++ "[" ++ getStrField v "namespace" ++ "] " ++
    getStrField v "message" ++ "\n" ++ prettyStringify (getCtx v)

/-- `prettyPrintLogObject(line)`: parse the line as JSON; render it as a log
record if it passes `isLogObject`, otherwise (parse failure included) print
the line as-is. -/
def render (line : String) : String :=
  match parseJSON line with
  | some j => if isLogObject j then renderLogObject j else line
  | none => line

/-! ## The `Logger` core

`mod.ts` itself is not under `src/` (only its test suite
`src/mod_test.ts` and the readme are), so the definitions below are
modelled from the specification (§3, §4.1–§4.3, §6) and cross-checked
against the concrete expectations in `src/mod_test.ts`. -/

/-- Modelled from the spec: the ordered, closed set of severities
(`LOG_LEVELS` in `mod.ts`). -/
def LOG_LEVELS : List String := ["trace", "debug", "info", "warn", "error", "fatal"]

/-- Modelled from the spec: `rank(level)` is a pure total-order lookup
giving the fixed ranks 0..5; an unrecognized severity is treated as
ranking below the lowest defined rank (§4.1's documented escape hatch). -/
def levelRank (l : String) : Int :=
  if l = "trace" then 0
  else if l = "debug" then 1
  else if l = "info" then 2
  else if l = "warn" then 3
  else if l = "error" then 4
  else if l = "fatal" then 5
  else -1

/-- Modelled from the spec: `isEnabled(configuredMin, level)` is true iff
`rank(level) >= rank(configuredMin)` (§4.1). -/
def isEnabled (minLevel level : String) : Bool := levelRank minLevel ≤ levelRank level

/-- The fixed-width numeric/byte array kinds the default normalizer
recognizes (§4.2 rule 2; the tags match the tests in `src/mod_test.ts`). -/
inductive TypedArrayKind where
  | int8
  | uint8
  | uint8Clamped
  | int16
  | uint16
  | int32
  | uint32
  | float32
  | float64
  | bigint64
  | biguint64

/-- The JavaScript constructor name of a fixed-width array kind. -/
def taName : TypedArrayKind → String
  | .int8 => "Int8Array"
  | .uint8 => "Uint8Array"
  | .uint8Clamped => "Uint8ClampedArray"
  | .int16 => "Int16Array"
  | .uint16 => "Uint16Array"
  | .int32 => "Int32Array"
  | .uint32 => "Uint32Array"
  | .float32 => "Float32Array"
  | .float64 => "Float64Array"
  | .bigint64 => "BigInt64Array"
  | .biguint64 => "BigUint64Array"

/-- Modelled from the spec: the host-value kinds the default
`jsonValueSerializer` distinguishes (§4.2's enumerated rules plus the
native pass-through).  Dates carry their ISO-8601 rendering, map entries
carry string keys (the post-conversion form a JSON object can hold),
functions carry their name and parameter list, arbitrary-precision
integers their integral value, and symbols their description; element
contents of fixed-width arrays are carried (as integers) but never
inspected by the normalizer. -/
inductive JSValue where
  | null
  | bool (b : Bool)
  | num (n : Int)
  | str (s : String)
  | arr (elems : List JSValue)
  | obj (fields : List (String × JSValue))
  | error (message errName stack : String)
  | typedArray (kind : TypedArrayKind) (elems : List Int)
  | arrayBuffer (byteLength : Nat) (shared : Bool)
  | date (iso : String)
  | regexp (source flags : String)
  | jsmap (entries : List (String × JSValue))
  | jsset (elems : List JSValue)
  | weakMap
  | weakSet
  | promise
  | dataView
  | func (fnName : String) (params : List String)
  | bigint (n : Int)
  | symbol (description : String)

mutual

/-- Modelled from the spec: the default value normalizer (§4.2) fused with
the serializer's recursive walk — `JSON.stringify(·, serializer)` applies
the hook to every value and recurses into what it returns.  Error-likes
become `{message, name, stack}`; fixed-width arrays become
`"<TypeName>(<elementCount>)"`; buffers collapse to `"ArrayBuffer"`; dates
to their ISO string; regexps to `/source/flags`; maps to plain objects;
sets to arrays; weak collections, promises and data views to their tag
strings; functions to `"name(params)"`; bigints and symbols to their
textual forms; native JSON values pass through unchanged. -/
def jsonOfJS : JSValue → JSONValue
  | .null => .null
  | .bool b => .bool b
  | .num n => .num n
  | .str s => .str s
  | .arr xs => .arr (jsonOfJSList xs)
  | .obj fs => .obj (jsonOfJSFields fs)
  | .error m nm st => .obj [("message", .str m), ("name", .str nm), ("stack", .str st)]
  | .typedArray k es => .str (taName k ++ "(" ++ intToString (es.length : Int) ++ ")")
  | .arrayBuffer _ _ => .str "ArrayBuffer"
  | .date iso => .str iso
  | .regexp src fl => .str ("/" ++ src ++ "/" ++ fl)
  | .jsmap entries => .obj (jsonOfJSFields entries)
  | .jsset xs => .arr (jsonOfJSList xs)
  | .weakMap => .str "WeakMap"
  | .weakSet => .str "WeakSet"
  | .promise => .str "Promise"
  | .dataView => .str "DataView"
  | .func nm ps => .str (nm ++ "(" ++ String.intercalate ", " ps ++ ")")
  | .bigint n => .str (intToString n)
  | .symbol d => .str ("Symbol(" ++ d ++ ")")

def jsonOfJSList : List JSValue → List JSONValue
  | [] => []
  | x :: xs => jsonOfJS x :: jsonOfJSList xs

def jsonOfJSFields : List (String × JSValue) → List (String × JSONValue)
  | [] => []
  | f :: fs => (f.1, jsonOfJS f.2) :: jsonOfJSFields fs

end

mutual

/-- The embedding of a native JSON value into the host-value model; the
image of this map is exactly the "context containing only native-JSON
values" of the round-trip property. -/
def jsOfJSON : JSONValue → JSValue
  | .null => .null
  | .bool b => .bool b
  | .num n => .num n
  | .str s => .str s
  | .arr xs => .arr (jsOfJSONList xs)
  | .obj fs => .obj (jsOfJSONFields fs)

def jsOfJSONList : List JSONValue → List JSValue
  | [] => []
  | x :: xs => jsOfJSON x :: jsOfJSONList xs

def jsOfJSONFields : List (String × JSONValue) → List (String × JSValue)
  | [] => []
  | f :: fs => (f.1, jsOfJSON f.2) :: jsOfJSONFields fs

end

/-- Modelled from the spec: the LogRecord an emit call builds (§4.3 step 2,
field order per the wire format of §6): `level`, `level_n = rank(level)`,
`timestamp` (the current instant, supplied here as the parameter `ts`)
iff `includeTimestamp`, then `namespace`, `message`, and the context with
the default normalizer applied during serialization. -/
def buildRecord (includeTimestamp : Bool) (ts level ns msg : String)
    (ctx : List (String × JSValue)) : JSONValue :=
  .obj (("level", .str level) :: ("level_n", .num (levelRank level)) ::
    (if includeTimestamp then [("timestamp", .str ts)] else []) ++
    [("namespace", .str ns), ("message", .str msg), ("context", jsonOfJS (.obj ctx))])

/-- Modelled from the spec: the default `formatLog` — the single-line JSON
encoding of the record (§4.3 step 3). -/
def formatLogDefault (r : JSONValue) : String := stringifyCompact r

/-- Modelled from the spec: one emit call (§4.3): gate on
`isEnabled(minLogLevel, level)`; when enabled, build the record and write
exactly one formatted line to the output sink; when disabled, write
nothing.  The returned list is the sequence of lines written. -/
def emit (minLogLevel : String) (includeTimestamp : Bool) (ts level ns msg : String)
    (ctx : List (String × JSValue)) : List String :=
  if isEnabled minLogLevel level then
    [formatLogDefault (buildRecord includeTimestamp ts level ns msg ctx)]
  else []

/-! # Theorems

## Line-assembly lemmas -/

theorem splitNl_ne_nil : ∀ s : List Char, splitNl s ≠ []
  | [] => by simp [splitNl]
  | c :: cs => by
    simp only [splitNl]
    split
    · simp
    · split <;> simp

theorem splitNl_of_nlFree : ∀ {s : List Char}, '\n' ∉ s → splitNl s = [s] := by
  intro s h
  induction s with
  | nil => rfl
  | cons c cs ih =>
    simp only [List.mem_cons, not_or] at h
    obtain ⟨h1, h2⟩ := h
    rw [splitNl, if_neg fun hh => h1 hh.symm, ih h2]

theorem mem_splitNl_nlFree : ∀ (s : List Char) (p : List Char), p ∈ splitNl s → '\n' ∉ p := by
  intro s
  induction s with
  | nil =>
    intro p hp
    simp [splitNl] at hp
    simp [hp]
  | cons c cs ih =>
    intro p hp
    by_cases hc : c = '\n'
    · rw [splitNl, if_pos hc] at hp
      rcases List.mem_cons.mp hp with h | h
      · simp [h]
      · exact ih p h
    · rw [splitNl, if_neg hc] at hp
      cases heq : splitNl cs with
      | nil => exact absurd heq (splitNl_ne_nil cs)
      | cons h' t' =>
        rw [heq] at hp
        rcases List.mem_cons.mp hp with h | h
        · subst h
          intro hmem
          rcases List.mem_cons.mp hmem with h | h
          · exact hc h.symm
          · exact ih h' (heq ▸ List.mem_cons_self h' t') h
        · exact ih p (heq ▸ List.mem_cons_of_mem h' h)

theorem lastOf_mem : ∀ l : List (List Char), l ≠ [] → lastOf l ∈ l
  | [], h => absurd rfl h
  | [_], _ => by simp [lastOf]
  | x :: y :: ys, _ => by
    simp only [lastOf]
    exact List.mem_cons_of_mem x (lastOf_mem (y :: ys) (by simp))

theorem getLastD_eq_lastOf : ∀ (l : List (List Char)) (d : List Char), l ≠ [] →
    l.getLastD d = lastOf l
  | [], _, h => absurd rfl h
  | [_], _, _ => rfl
  | x :: y :: ys, d, _ => by
    rw [List.getLastD_cons, lastOf]
    exact getLastD_eq_lastOf (y :: ys) x (by simp)

theorem joinFirst_ne_nil (p : List Char) (l : List (List Char)) : joinFirst p l ≠ [] := by
  cases l <;> simp [joinFirst]

theorem lastOf_cons_of_ne_nil {l : List (List Char)} (x : List Char) (h : l ≠ []) :
    lastOf (x :: l) = lastOf l := by
  cases l with
  | nil => exact absurd rfl h
  | cons y ys => rfl

theorem lastOf_append {l2 : List (List Char)} (l1 : List (List Char)) (h : l2 ≠ []) :
    lastOf (l1 ++ l2) = lastOf l2 := by
  induction l1 with
  | nil => rfl
  | cons x l1 ih =>
    rw [List.cons_append, lastOf_cons_of_ne_nil x (by simp [h]), ih]

theorem dropLast_append_ne_nil {l2 : List (List Char)} (l1 : List (List Char)) (h : l2 ≠ []) :
    (l1 ++ l2).dropLast = l1 ++ l2.dropLast := by
  induction l1 with
  | nil => rfl
  | cons x l1 ih =>
    cases hl : l1 ++ l2 with
    | nil => exact absurd (List.append_eq_nil.mp hl).2 h
    | cons y ys => rw [List.cons_append, hl, List.dropLast_cons₂, ← hl, ih, List.cons_append]

theorem splitNl_cons_nl (cs : List Char) : splitNl ('\n' :: cs) = [] :: splitNl cs := by
  simp [splitNl]

theorem splitNl_cons_of_ne {c : Char} {cs h : List Char} {t : List (List Char)}
    (hc : c ≠ '\n') (heq : splitNl cs = h :: t) : splitNl (c :: cs) = (c :: h) :: t := by
  simp only [splitNl]
  rw [if_neg hc, heq]

/-- How splitting distributes over an append: the last (unterminated) piece
of the left part fuses with the first piece of the right part. -/
theorem splitNl_append : ∀ a b : List Char,
    splitNl (a ++ b) = (splitNl a).dropLast ++ joinFirst (lastOf (splitNl a)) (splitNl b) := by
  intro a b
  induction a with
  | nil =>
    cases hb : splitNl b with
    | nil => exact absurd hb (splitNl_ne_nil b)
    | cons h t => simp [splitNl, lastOf, joinFirst, hb]
  | cons c a' ih =>
    cases heq : splitNl a' with
    | nil => exact absurd heq (splitNl_ne_nil a')
    | cons h' t' =>
      by_cases hc : c = '\n'
      · subst hc
        rw [List.cons_append, splitNl_cons_nl, ih, splitNl_cons_nl, heq]
        cases t' with
        | nil => simp [lastOf, joinFirst]
        | cons h2 t2 => simp [lastOf, List.dropLast_cons₂]
      · cases t' with
        | nil =>
          cases hb : splitNl b with
          | nil => exact absurd hb (splitNl_ne_nil b)
          | cons hb1 tb =>
            have hIH : splitNl (a' ++ b) = (h' ++ hb1) :: tb := by
              rw [ih, heq, hb]; simp [joinFirst, lastOf]
            rw [List.cons_append, splitNl_cons_of_ne hc hIH, splitNl_cons_of_ne hc heq]
            simp [hb, joinFirst, lastOf, List.cons_append]
        | cons h2 t2 =>
          have hIH : splitNl (a' ++ b) =
              h' :: ((h2 :: t2).dropLast ++ joinFirst (lastOf (h2 :: t2)) (splitNl b)) := by
            rw [ih, heq]; simp [lastOf, List.dropLast_cons₂]
          rw [List.cons_append, splitNl_cons_of_ne hc hIH, splitNl_cons_of_ne hc heq]
          simp [lastOf, List.dropLast_cons₂, List.cons_append]

/-- The chunk loop, started from any newline-free pending buffer, emits
exactly the complete lines of `pending ++ flatten chunks` and retains the
unterminated tail as the new pending buffer. -/
theorem runAssembler_spec : ∀ (chunks : List (List Char)) (pending : List Char)
    (emitted : List (List Char)),
    '\n' ∉ pending →
    runAssembler (emitted, pending) chunks =
      (emitted ++ (splitNl (pending ++ chunks.flatten)).dropLast,
        lastOf (splitNl (pending ++ chunks.flatten))) := by
  intro chunks
  induction chunks with
  | nil =>
    intro pending emitted h
    simp [runAssembler, splitNl_of_nlFree h, lastOf]
  | cons ch rest ih =>
    intro pending emitted h
    have hS1 : splitNl (pending ++ ch) ≠ [] := splitNl_ne_nil _
    have hp' : '\n' ∉ lastOf (splitNl (pending ++ ch)) :=
      mem_splitNl_nlFree _ _ (lastOf_mem _ hS1)
    rw [runAssembler, feedChunk]
    simp only []
    rw [getLastD_eq_lastOf _ _ hS1, ih _ _ hp']
    have hJ : joinFirst (lastOf (splitNl (pending ++ ch))) (splitNl rest.flatten) ≠ [] :=
      joinFirst_ne_nil _ _
    have hsplit2 : splitNl (lastOf (splitNl (pending ++ ch)) ++ rest.flatten) =
        joinFirst (lastOf (splitNl (pending ++ ch))) (splitNl rest.flatten) := by
      rw [splitNl_append, splitNl_of_nlFree hp']
      simp [lastOf]
    rw [hsplit2, List.flatten_cons, show pending ++ (ch ++ rest.flatten) =
      (pending ++ ch) ++ rest.flatten from (List.append_assoc _ _ _).symm,
      splitNl_append (pending ++ ch) rest.flatten,
      dropLast_append_ne_nil _ hJ, lastOf_append _ hJ, List.append_assoc]

/-- C4 combined statement: the assembler's emitted lines over any finite
chunk sequence are exactly the complete (newline-terminated) lines of the
concatenated input in order, the retained pending buffer is the
unterminated tail, and end-of-stream drops that tail. -/
theorem c4_chunk_invariance : ∀ chunks : List (List Char),
    runAssembler ([], []) chunks =
      ((splitNl chunks.flatten).dropLast, lastOf (splitNl chunks.flatten)) ∧
    assembleLines chunks = (splitNl chunks.flatten).dropLast := by
  intro chunks
  have h := runAssembler_spec chunks [] [] (by simp)
  simp only [List.nil_append] at h
  exact ⟨h, by rw [assembleLines, h]⟩

/-- C1 as written is false: on the chunks `"ab"`, `"c\ndef\ng"`, `"hi\n"`
the assembler does not emit `["abcdef", "ghi"]` (the second chunk contains
a newline between `"c"` and `"def"`). -/
theorem c1_counterexample : assembleStrings ["ab", "c\ndef\ng", "hi\n"] ≠ ["abcdef", "ghi"] := by
  decide

/-- C1 amended: feeding the three chunks `"ab"`, `"c\ndef\ng"`, `"hi\n"`
yields exactly the lines `["abc", "def", "ghi"]` in order (no characters
lost or duplicated: the emitted lines joined by newlines, plus the final
newline, are exactly the concatenated input). -/
theorem c1_assembled_lines : assembleStrings ["ab", "c\ndef\ng", "hi\n"] = ["abc", "def", "ghi"] := by
  decide

/-! ## Digit, whitespace and escape lemmas -/

theorem digitChar_isDigit {d : Nat} (h : d < 10) : isDigitC (Nat.digitChar d) = true := by
  interval_cases d <;> decide

theorem digVal_digitChar {d : Nat} (h : d < 10) : digVal (Nat.digitChar d) = d := by
  interval_cases d <;> decide

theorem hexVal_digitChar {d : Nat} (h : d < 16) : hexVal (Nat.digitChar d) = some d := by
  interval_cases d <;> decide

theorem digit_not_special {c : Char} (h : isDigitC c = true) :
    c ≠ 'n' ∧ c ≠ 't' ∧ c ≠ 'f' ∧ c ≠ '"' ∧ c ≠ '-' ∧ c ≠ '[' ∧ c ≠ '{' ∧ c ≠ ']' ∧
      c ≠ '}' ∧ c ≠ ',' ∧ c ≠ ':' ∧ isWsC c = false := by
  have hh : 48 ≤ c.toNat ∧ c.toNat ≤ 57 := of_decide_eq_true h
  refine ⟨fun he => ?_, fun he => ?_, fun he => ?_, fun he => ?_, fun he => ?_, fun he => ?_,
    fun he => ?_, fun he => ?_, fun he => ?_, fun he => ?_, fun he => ?_, ?_⟩
  case _ => subst he; exact absurd hh (by decide)
  case _ => subst he; exact absurd hh (by decide)
  case _ => subst he; exact absurd hh (by decide)
  case _ => subst he; exact absurd hh (by decide)
  case _ => subst he; exact absurd hh (by decide)
  case _ => subst he; exact absurd hh (by decide)
  case _ => subst he; exact absurd hh (by decide)
  case _ => subst he; exact absurd hh (by decide)
  case _ => subst he; exact absurd hh (by decide)
  case _ => subst he; exact absurd hh (by decide)
  case _ => subst he; exact absurd hh (by decide)
  case _ => simp only [isWsC, decide_eq_false_iff_not]; omega

theorem skipWs_cons_of (c : Char) (h : isWsC c = false) (s : List Char) :
    skipWs (c :: s) = c :: s := by
  simp [skipWs, List.dropWhile_cons, h]

/-! ## Decimal number round-trip -/

theorem natDigits_ne_nil (n : Nat) : natDigits n ≠ [] := by
  rw [natDigits]; split <;> simp

theorem natDigits_all_digits : ∀ n : Nat, ∀ c ∈ natDigits n, isDigitC c = true := by
  intro n
  induction n using Nat.strong_induction_on with
  | _ n ih =>
    rw [natDigits]
    split
    · intro c hc
      simp only [List.mem_singleton] at hc
      subst hc
      exact digitChar_isDigit (by omega)
    · intro c hc
      rcases List.mem_append.mp hc with h | h
      · exact ih (n / 10) (Nat.div_lt_self (by omega) (by omega)) c h
      · simp only [List.mem_singleton] at h
        subst h
        exact digitChar_isDigit (@Nat.mod_lt _ 10 (by omega))

theorem parseNatAux_stop : ∀ (rest : List Char) (acc : Nat), headNotDigit rest →
    parseNatAux rest acc = (acc, rest)
  | [], _, _ => rfl
  | c :: _, acc, h => by
    have hc : isDigitC c = false := h
    simp [parseNatAux, hc]

theorem parseNatAux_digits : ∀ (n : Nat) (rest : List Char) (acc : Nat),
    parseNatAux (natDigits n ++ rest) acc =
      parseNatAux rest (acc * 10 ^ (natDigits n).length + n) := by
  intro n
  induction n using Nat.strong_induction_on with
  | _ n ih =>
    intro rest acc
    by_cases h10 : n < 10
    · rw [natDigits, dif_pos h10]
      have hd := digitChar_isDigit h10
      have hv := digVal_digitChar h10
      simp [parseNatAux, hd, hv]
    · rw [natDigits, dif_neg h10, List.append_assoc,
        ih (n / 10) (Nat.div_lt_self (by omega) (by omega)), List.singleton_append]
      have hd := digitChar_isDigit (@Nat.mod_lt n 10 (by omega))
      have hv := digVal_digitChar (@Nat.mod_lt n 10 (by omega))
      simp only [parseNatAux, hd, if_pos, hv, List.length_append, List.length_cons,
        List.length_nil]
      congr 1
      rw [pow_succ]
      have hmod : 10 * (n / 10) + n % 10 = n := Nat.div_add_mod n 10
      calc (acc * 10 ^ (natDigits (n / 10)).length + n / 10) * 10 + n % 10
          = acc * (10 ^ (natDigits (n / 10)).length * 10) + (10 * (n / 10) + n % 10) := by ring
        _ = acc * (10 ^ (natDigits (n / 10)).length * 10) + n := by rw [hmod]

theorem parseNat_natDigits (n : Nat) (rest : List Char) (h : headNotDigit rest) :
    parseNat (natDigits n ++ rest) = some (n, rest) := by
  cases heq : natDigits n with
  | nil => exact absurd heq (natDigits_ne_nil n)
  | cons c cs =>
    have hc : isDigitC c = true := natDigits_all_digits n c (heq ▸ List.mem_cons_self c cs)
    rw [List.cons_append, parseNat, if_pos hc, ← List.cons_append, ← heq,
      parseNatAux_digits, parseNatAux_stop rest _ h]
    simp

/-! ## String-literal round-trip -/

theorem parseStrBody_flatMap : ∀ l rest : List Char,
    parseStrBody (l.flatMap encChar ++ '"' :: rest) = some (l, rest) := by
  intro l
  induction l with
  | nil =>
    intro rest
    rw [List.flatMap_nil, List.nil_append, parseStrBody.eq_def]
    simp
  | cons c l' ih =>
    intro rest
    rw [List.flatMap_cons, List.append_assoc]
    by_cases h1 : c = '"'
    · subst h1
      rw [show encChar '"' = ['\\', '"'] from rfl, List.cons_append, List.singleton_append,
        parseStrBody.eq_def]
      simp [consFst, ih]
    by_cases h2 : c = '\\'
    · subst h2
      rw [show encChar '\\' = ['\\', '\\'] from rfl, List.cons_append, List.singleton_append,
        parseStrBody.eq_def]
      simp [consFst, ih]
    by_cases h3 : c = '\x08'
    · subst h3
      rw [show encChar '\x08' = ['\\', 'b'] from rfl, List.cons_append, List.singleton_append,
        parseStrBody.eq_def]
      simp [consFst, ih]
    by_cases h4 : c = '\x0c'
    · subst h4
      rw [show encChar '\x0c' = ['\\', 'f'] from rfl, List.cons_append, List.singleton_append,
        parseStrBody.eq_def]
      simp [consFst, ih]
    by_cases h5 : c = '\n'
    · subst h5
      rw [show encChar '\n' = ['\\', 'n'] from rfl, List.cons_append, List.singleton_append,
        parseStrBody.eq_def]
      simp [consFst, ih]
    by_cases h6 : c = '\r'
    · subst h6
      rw [show encChar '\r' = ['\\', 'r'] from rfl, List.cons_append, List.singleton_append,
        parseStrBody.eq_def]
      simp [consFst, ih]
    by_cases h7 : c = '\t'
    · subst h7
      rw [show encChar '\t' = ['\\', 't'] from rfl, List.cons_append, List.singleton_append,
        parseStrBody.eq_def]
      simp [consFst, ih]
    by_cases h8 : c.toNat < 32
    · have henc : encChar c =
          ['\\', 'u', '0', '0', Nat.digitChar (c.toNat / 16), Nat.digitChar (c.toNat % 16)] := by
        rw [encChar, if_neg h1, if_neg h2, if_neg h3, if_neg h4, if_neg h5, if_neg h6, if_neg h7,
          if_pos (by simpa using h8)]
      have hd1 : hexVal (Nat.digitChar (c.toNat / 16)) = some (c.toNat / 16) :=
        hexVal_digitChar (by omega)
      have hd2 : hexVal (Nat.digitChar (c.toNat % 16)) = some (c.toNat % 16) :=
        hexVal_digitChar (by omega)
      have h0 : hexVal '0' = some 0 := rfl
      rw [henc, List.cons_append, List.cons_append, List.cons_append, List.cons_append,
        List.cons_append, List.singleton_append, parseStrBody.eq_def]
      norm_num
      rw [hd1, hd2]
      simp only [ih, Option.map_some]
      have hval : c.toNat / 16 * 16 + c.toNat % 16 = c.toNat := by omega
      rw [h0]
      simp [consFst, hval, Char.ofNat_toNat]
    · have henc : encChar c = [c] := by
        rw [encChar, if_neg h1, if_neg h2, if_neg h3, if_neg h4, if_neg h5, if_neg h6, if_neg h7,
          if_neg (by simpa using h8)]
      have h32 : (decide (c.toNat < 32)) = false := by simpa using h8
      rw [henc, List.singleton_append, parseStrBody.eq_def]
      simp only [if_neg h1, if_neg h2, h32, Bool.false_eq_true, if_false, ih, Option.map_some]
      simp [consFst]

theorem parseStrBody_encStr (s : String) (rest : List Char) :
    parseStrBody (encStrBody s ++ '"' :: rest) = some (s.data, rest) :=
  parseStrBody_flatMap s.data rest

/-! ## Head characters of printed JSON -/

theorem isWsC_of_digit {c : Char} (h : isDigitC c = true) : isWsC c = false := by
  have hh : 48 ≤ c.toNat ∧ c.toNat ≤ 57 := of_decide_eq_true h
  simp only [isWsC, decide_eq_false_iff_not]
  omega

theorem ne_of_digit {c d : Char} (h : isDigitC c = true) (hd : isDigitC d = false) : c ≠ d := by
  intro he
  subst he
  rw [h] at hd
  cases hd

theorem charsOfJSON_head : ∀ v : JSONValue, ∃ c cs, charsOfJSON v = c :: cs ∧
    (c = 'n' ∨ c = 't' ∨ c = 'f' ∨ c = '"' ∨ c = '-' ∨ isDigitC c = true ∨ c = '[' ∨ c = '{') := by
  intro v
  cases v with
  | null => exact ⟨'n', _, rfl, by simp⟩
  | bool b =>
    cases b with
    | false => exact ⟨'f', _, rfl, by simp⟩
    | true => exact ⟨'t', _, rfl, by simp⟩
  | num n =>
    by_cases hn : n < 0
    · refine ⟨'-', natDigits (-n).toNat, ?_, by simp⟩
      rw [show charsOfJSON (.num n) = charsOfInt n from rfl, charsOfInt, if_pos hn]
    · cases heq : natDigits n.toNat with
      | nil => exact absurd heq (natDigits_ne_nil _)
      | cons c cs =>
        refine ⟨c, cs, ?_, ?_⟩
        · rw [show charsOfJSON (.num n) = charsOfInt n from rfl, charsOfInt, if_neg hn, heq]
        · have hd := natDigits_all_digits n.toNat c (heq ▸ List.mem_cons_self c cs)
          simp [hd]
  | str s => exact ⟨'"', _, rfl, by simp⟩
  | arr xs => exact ⟨'[', _, rfl, by simp⟩
  | obj fs => exact ⟨'{', _, rfl, by simp⟩

theorem skipWs_charsOfJSON (v : JSONValue) (rest : List Char) :
    skipWs (charsOfJSON v ++ rest) = charsOfJSON v ++ rest := by
  obtain ⟨c, cs, heq, hc⟩ := charsOfJSON_head v
  rw [heq, List.cons_append]
  refine skipWs_cons_of c ?_ _
  rcases hc with rfl | rfl | rfl | rfl | rfl | h | rfl | rfl
  · decide
  · decide
  · decide
  · decide
  · decide
  · exact isWsC_of_digit h
  · decide
  · decide

theorem headIs_charsOfJSON_close (v : JSONValue) (rest : List Char) {d : Char}
    (h1 : isDigitC d = false)
    (h2 : d ≠ 'n' ∧ d ≠ 't' ∧ d ≠ 'f' ∧ d ≠ '"' ∧ d ≠ '-' ∧ d ≠ '[' ∧ d ≠ '{') :
    headIs (charsOfJSON v ++ rest) d = false := by
  obtain ⟨c, cs, heq, hc⟩ := charsOfJSON_head v
  rw [heq, List.cons_append]
  obtain ⟨g1, g2, g3, g4, g5, g6, g7⟩ := h2
  show decide (c = d) = false
  refine decide_eq_false ?_
  rcases hc with rfl | rfl | rfl | rfl | rfl | h | rfl | rfl
  · exact fun he => g1 he.symm
  · exact fun he => g2 he.symm
  · exact fun he => g3 he.symm
  · exact fun he => g4 he.symm
  · exact fun he => g5 he.symm
  · exact ne_of_digit h h1
  · exact fun he => g6 he.symm
  · exact fun he => g7 he.symm

theorem skipWs_charsArrItems (x : JSONValue) (xs : List JSONValue) (rest : List Char) :
    skipWs (charsArrItems (x :: xs) ++ rest) = charsArrItems (x :: xs) ++ rest := by
  cases xs with
  | nil => exact skipWs_charsOfJSON x rest
  | cons y ys =>
    rw [show charsArrItems (x :: y :: ys) = charsOfJSON x ++ ',' :: charsArrItems (y :: ys)
      from rfl, List.append_assoc]
    exact skipWs_charsOfJSON x _

theorem headIs_charsArrItems_close (x : JSONValue) (xs : List JSONValue) (rest : List Char)
    {d : Char} (h1 : isDigitC d = false)
    (h2 : d ≠ 'n' ∧ d ≠ 't' ∧ d ≠ 'f' ∧ d ≠ '"' ∧ d ≠ '-' ∧ d ≠ '[' ∧ d ≠ '{') :
    headIs (charsArrItems (x :: xs) ++ rest) d = false := by
  cases xs with
  | nil => exact headIs_charsOfJSON_close x rest h1 h2
  | cons y ys =>
    rw [show charsArrItems (x :: y :: ys) = charsOfJSON x ++ ',' :: charsArrItems (y :: ys)
      from rfl, List.append_assoc]
    exact headIs_charsOfJSON_close x _ h1 h2

theorem skipWs_charsObjItems (g : String × JSONValue) (gs : List (String × JSONValue))
    (rest : List Char) :
    skipWs (charsObjItems (g :: gs) ++ rest) = charsObjItems (g :: gs) ++ rest := by
  cases gs with
  | nil => exact skipWs_cons_of '"' (by decide) _
  | cons g2 gs2 => exact skipWs_cons_of '"' (by decide) _

theorem headIs_charsObjItems_close (g : String × JSONValue) (gs : List (String × JSONValue))
    (rest : List Char) : headIs (charsObjItems (g :: gs) ++ rest) '}' = false := by
  cases gs with
  | nil => rfl
  | cons g2 gs2 => rfl

/-! ## Size bounds -/

theorem sizeJ_pos (v : JSONValue) : 1 ≤ sizeJ v := by
  cases v <;> simp [sizeJ]

theorem sizeJList_pos (xs : List JSONValue) (h : xs ≠ []) : 1 ≤ sizeJList xs := by
  cases xs with
  | nil => exact absurd rfl h
  | cons x t => simp only [sizeJList]; omega

theorem sizeJFields_pos (fs : List (String × JSONValue)) (h : fs ≠ []) : 1 ≤ sizeJFields fs := by
  cases fs with
  | nil => exact absurd rfl h
  | cons f t => simp only [sizeJFields]; omega

mutual

theorem sizeJ_le_length : ∀ v : JSONValue, sizeJ v ≤ (charsOfJSON v).length
  | .null => by simp [sizeJ, charsOfJSON]
  | .bool b => by cases b <;> simp [sizeJ, charsOfJSON]
  | .num n => by
    have hne : charsOfInt n ≠ [] := by
      rw [charsOfInt]
      split
      · simp
      · exact natDigits_ne_nil _
    have := List.length_pos.mpr hne
    simp only [sizeJ, charsOfJSON]
    omega
  | .str s => by simp [sizeJ, charsOfJSON, encStr]
  | .arr xs => by
    have := sizeJList_le_length xs
    simp only [sizeJ, charsOfJSON, List.length_cons, List.length_append, List.length_singleton]
    omega
  | .obj fs => by
    have := sizeJFields_le_length fs
    simp only [sizeJ, charsOfJSON, List.length_cons, List.length_append, List.length_singleton]
    omega

theorem sizeJList_le_length : ∀ xs : List JSONValue, sizeJList xs ≤ (charsArrItems xs).length + 1
  | [] => by simp [sizeJList]
  | [x] => by
    have := sizeJ_le_length x
    simp only [sizeJList, charsArrItems]
    omega
  | x :: y :: ys => by
    have h1 := sizeJ_le_length x
    have h2 := sizeJList_le_length (y :: ys)
    simp only [sizeJList] at h2 ⊢
    simp only [charsArrItems, List.length_append, List.length_cons]
    omega

theorem sizeJFields_le_length : ∀ fs : List (String × JSONValue),
    sizeJFields fs ≤ (charsObjItems fs).length + 1
  | [] => by simp [sizeJFields]
  | [f] => by
    have := sizeJ_le_length f.2
    simp only [sizeJFields, charsObjItems, List.length_append, List.length_cons]
    omega
  | f :: g :: gs => by
    have h1 := sizeJ_le_length f.2
    have h2 := sizeJFields_le_length (g :: gs)
    simp only [sizeJFields] at h2 ⊢
    simp only [charsObjItems, List.length_append, List.length_cons]
    omega

end

/-! ## Round-trip of the parser over the printer, case by case -/

theorem headNotDigit_cons {c : Char} (h : isDigitC c = false) (t : List Char) :
    headNotDigit (c :: t) := h

theorem parseValue_null (f : Nat) (rest : List Char) :
    parseValue (f + 1) (charsOfJSON .null ++ rest) = some (.null, rest) := by
  rw [show charsOfJSON .null ++ rest = 'n' :: 'u' :: 'l' :: 'l' :: rest from rfl,
    parseValue.eq_def]
  simp only [skipWs_cons_of 'n' (by decide)]
  simp

theorem parseValue_bool (f : Nat) (b : Bool) (rest : List Char) :
    parseValue (f + 1) (charsOfJSON (.bool b) ++ rest) = some (.bool b, rest) := by
  cases b
  · rw [show charsOfJSON (.bool false) ++ rest = 'f' :: 'a' :: 'l' :: 's' :: 'e' :: rest from rfl,
      parseValue.eq_def]
    simp only [skipWs_cons_of 'f' (by decide)]
    simp
  · rw [show charsOfJSON (.bool true) ++ rest = 't' :: 'r' :: 'u' :: 'e' :: rest from rfl,
      parseValue.eq_def]
    simp only [skipWs_cons_of 't' (by decide)]
    simp

theorem parseValue_str (f : Nat) (s : String) (rest : List Char) :
    parseValue (f + 1) (charsOfJSON (.str s) ++ rest) = some (.str s, rest) := by
  rw [show charsOfJSON (.str s) ++ rest = '"' :: ((encStrBody s ++ ['"']) ++ rest) from rfl,
    List.append_assoc, List.singleton_append, parseValue.eq_def]
  simp only [skipWs_cons_of '"' (by decide)]
  simp [parseStrBody_encStr]

theorem parseValue_num (f : Nat) (n : Int) (rest : List Char) (hnd : headNotDigit rest) :
    parseValue (f + 1) (charsOfJSON (.num n) ++ rest) = some (.num n, rest) := by
  by_cases hn : n < 0
  · have hsh : charsOfJSON (.num n) ++ rest = '-' :: (natDigits (-n).toNat ++ rest) := by
      rw [show charsOfJSON (.num n) = charsOfInt n from rfl, charsOfInt, if_pos hn,
        List.cons_append]
    rw [hsh, parseValue.eq_def]
    simp only [skipWs_cons_of '-' (by decide)]
    norm_num
    rw [parseNat_natDigits _ _ hnd]
    have hcast : ((-n).toNat : Int) = -n := Int.toNat_of_nonneg (by omega)
    simp [hcast]
  · cases heq : natDigits n.toNat with
    | nil => exact absurd heq (natDigits_ne_nil _)
    | cons c cs =>
      have hc : isDigitC c = true := natDigits_all_digits n.toNat c (heq ▸ List.mem_cons_self c cs)
      have hsh : charsOfJSON (.num n) ++ rest = c :: (cs ++ rest) := by
        rw [show charsOfJSON (.num n) = charsOfInt n from rfl, charsOfInt, if_neg hn, heq,
          List.cons_append]
      rw [hsh, parseValue.eq_def]
      simp only [skipWs_cons_of c (isWsC_of_digit hc)]
      rw [if_neg (ne_of_digit hc (by decide)), if_neg (ne_of_digit hc (by decide)),
        if_neg (ne_of_digit hc (by decide)), if_neg (ne_of_digit hc (by decide)),
        if_neg (ne_of_digit hc (by decide)), if_pos hc, ← List.cons_append, ← heq,
        parseNat_natDigits _ _ hnd]
      have hcast : (n.toNat : Int) = n := Int.toNat_of_nonneg (by omega)
      simp [hcast]

theorem parseValue_arr_nil (f : Nat) (rest : List Char) :
    parseValue (f + 1) (charsOfJSON (.arr []) ++ rest) = some (.arr [], rest) := by
  rw [show charsOfJSON (.arr []) ++ rest = '[' :: ']' :: rest from rfl, parseValue.eq_def]
  simp only [skipWs_cons_of '[' (by decide), skipWs_cons_of ']' (by decide)]
  simp [headIs, show isDigitC '[' = false from by decide]

theorem parseValue_arr_cons (f : Nat) (x : JSONValue) (xs : List JSONValue) (rest : List Char)
    (hItems : parseItems f (charsArrItems (x :: xs) ++ ']' :: rest) = some (.arr (x :: xs), rest)) :
    parseValue (f + 1) (charsOfJSON (.arr (x :: xs)) ++ rest) = some (.arr (x :: xs), rest) := by
  have hsh : charsOfJSON (.arr (x :: xs)) ++ rest =
      '[' :: (charsArrItems (x :: xs) ++ (']' :: rest)) := by
    simp [show charsOfJSON (.arr (x :: xs)) = '[' :: charsArrItems (x :: xs) ++ [']'] from rfl]
  rw [hsh, parseValue.eq_def]
  simp only [skipWs_cons_of '[' (by decide)]
  rw [skipWs_charsArrItems,
    headIs_charsArrItems_close x xs _ (by decide) (by refine ⟨?_, ?_, ?_, ?_, ?_, ?_, ?_⟩ <;> decide),
    hItems]
  simp [show isDigitC '[' = false from by decide]

theorem parseValue_obj_nil (f : Nat) (rest : List Char) :
    parseValue (f + 1) (charsOfJSON (.obj []) ++ rest) = some (.obj [], rest) := by
  rw [show charsOfJSON (.obj []) ++ rest = '{' :: '}' :: rest from rfl, parseValue.eq_def]
  simp only [skipWs_cons_of '{' (by decide), skipWs_cons_of '}' (by decide)]
  simp [headIs, show isDigitC '{' = false from by decide]

theorem parseValue_obj_cons (f : Nat) (g : String × JSONValue) (gs : List (String × JSONValue))
    (rest : List Char)
    (hMem : parseMembers f (charsObjItems (g :: gs) ++ '}' :: rest) = some (.obj (g :: gs), rest)) :
    parseValue (f + 1) (charsOfJSON (.obj (g :: gs)) ++ rest) = some (.obj (g :: gs), rest) := by
  have hsh : charsOfJSON (.obj (g :: gs)) ++ rest =
      '{' :: (charsObjItems (g :: gs) ++ ('}' :: rest)) := by
    simp [show charsOfJSON (.obj (g :: gs)) = '{' :: charsObjItems (g :: gs) ++ ['}'] from rfl]
  rw [hsh, parseValue.eq_def]
  simp only [skipWs_cons_of '{' (by decide)]
  rw [skipWs_charsObjItems, headIs_charsObjItems_close, hMem]
  simp [show isDigitC '{' = false from by decide]

theorem parseItems_single (f : Nat) (x : JSONValue) (rest : List Char)
    (hv : parseValue f (charsOfJSON x ++ ']' :: rest) = some (x, ']' :: rest)) :
    parseItems (f + 1) (charsArrItems [x] ++ ']' :: rest) = some (.arr [x], rest) := by
  rw [show charsArrItems [x] = charsOfJSON x from rfl, parseItems.eq_def]
  simp only [hv, skipWs_cons_of ']' (by decide)]

theorem parseItems_more (f : Nat) (x y : JSONValue) (ys : List JSONValue) (rest : List Char)
    (hv : parseValue f (charsOfJSON x ++ ',' :: (charsArrItems (y :: ys) ++ ']' :: rest)) =
      some (x, ',' :: (charsArrItems (y :: ys) ++ ']' :: rest)))
    (hrec : parseItems f (charsArrItems (y :: ys) ++ ']' :: rest) = some (.arr (y :: ys), rest)) :
    parseItems (f + 1) (charsArrItems (x :: y :: ys) ++ ']' :: rest) =
      some (.arr (x :: y :: ys), rest) := by
  have hsh : charsArrItems (x :: y :: ys) ++ ']' :: rest =
      charsOfJSON x ++ (',' :: (charsArrItems (y :: ys) ++ ']' :: rest)) := by
    rw [show charsArrItems (x :: y :: ys) = charsOfJSON x ++ ',' :: charsArrItems (y :: ys)
      from rfl, List.append_assoc]
    exact rfl
  rw [hsh, parseItems.eq_def]
  simp only [hv, skipWs_cons_of ',' (by decide)]
  rw [skipWs_charsArrItems, hrec]

theorem parseMembers_single (f : Nat) (k : String) (v : JSONValue) (rest : List Char)
    (hv : parseValue f (charsOfJSON v ++ '}' :: rest) = some (v, '}' :: rest)) :
    parseMembers (f + 1) (charsObjItems [(k, v)] ++ '}' :: rest) = some (.obj [(k, v)], rest) := by
  have hsh : charsObjItems [(k, v)] ++ '}' :: rest =
      '"' :: (encStrBody k ++ ('"' :: (':' :: (charsOfJSON v ++ '}' :: rest)))) := by
    rw [show charsObjItems [(k, v)] = encStr k ++ ':' :: charsOfJSON v from rfl, encStr]
    simp [List.append_assoc]
  rw [hsh, parseMembers.eq_def]
  simp only [parseStrBody_encStr, skipWs_cons_of ':' (by decide), hv,
    skipWs_cons_of '}' (by decide)]

theorem parseMembers_more (f : Nat) (k : String) (v : JSONValue) (g : String × JSONValue)
    (gs : List (String × JSONValue)) (rest : List Char)
    (hv : parseValue f (charsOfJSON v ++ ',' :: (charsObjItems (g :: gs) ++ '}' :: rest)) =
      some (v, ',' :: (charsObjItems (g :: gs) ++ '}' :: rest)))
    (hrec : parseMembers f (charsObjItems (g :: gs) ++ '}' :: rest) = some (.obj (g :: gs), rest)) :
    parseMembers (f + 1) (charsObjItems ((k, v) :: g :: gs) ++ '}' :: rest) =
      some (.obj ((k, v) :: g :: gs), rest) := by
  have hsh : charsObjItems ((k, v) :: g :: gs) ++ '}' :: rest =
      '"' :: (encStrBody k ++ ('"' :: (':' :: (charsOfJSON v ++
        (',' :: (charsObjItems (g :: gs) ++ '}' :: rest)))))) := by
    rw [show charsObjItems ((k, v) :: g :: gs) =
      encStr k ++ ':' :: charsOfJSON v ++ ',' :: charsObjItems (g :: gs) from rfl, encStr]
    simp [List.append_assoc]
  rw [hsh, parseMembers.eq_def]
  simp only [parseStrBody_encStr, skipWs_cons_of ':' (by decide), hv,
    skipWs_cons_of ',' (by decide)]
  rw [skipWs_charsObjItems, hrec]

/-- The parser inverts the printer: with enough fuel, parsing the compact
rendering of any value (followed by any non-digit-headed remainder) yields
exactly that value and the remainder; likewise for array element lists and
object member lists. -/
theorem parse_roundtrip_all : ∀ fuel : Nat,
    (∀ v rest, sizeJ v ≤ fuel → headNotDigit rest →
      parseValue fuel (charsOfJSON v ++ rest) = some (v, rest)) ∧
    (∀ xs rest, xs ≠ [] → sizeJList xs ≤ fuel →
      parseItems fuel (charsArrItems xs ++ ']' :: rest) = some (.arr xs, rest)) ∧
    (∀ fs rest, fs ≠ [] → sizeJFields fs ≤ fuel →
      parseMembers fuel (charsObjItems fs ++ '}' :: rest) = some (.obj fs, rest)) := by
  intro fuel
  induction fuel with
  | zero =>
    refine ⟨fun v rest hsz _ => absurd hsz ?_, fun xs rest hne hsz => absurd hsz ?_,
      fun fs rest hne hsz => absurd hsz ?_⟩
    · have := sizeJ_pos v; omega
    · have := sizeJList_pos xs hne; omega
    · have := sizeJFields_pos fs hne; omega
  | succ f ih =>
    obtain ⟨ihv, ihi, ihm⟩ := ih
    refine ⟨?_, ?_, ?_⟩
    · intro v rest hsz hnd
      cases v with
      | null => exact parseValue_null f rest
      | bool b => exact parseValue_bool f b rest
      | num n => exact parseValue_num f n rest hnd
      | str s => exact parseValue_str f s rest
      | arr xs =>
        cases xs with
        | nil => exact parseValue_arr_nil f rest
        | cons x xs2 =>
          have hsz2 : sizeJList (x :: xs2) ≤ f := by
            simp only [sizeJ] at hsz; omega
          exact parseValue_arr_cons f x xs2 rest (ihi (x :: xs2) rest (by simp) hsz2)
      | obj fs =>
        cases fs with
        | nil => exact parseValue_obj_nil f rest
        | cons g gs =>
          have hsz2 : sizeJFields (g :: gs) ≤ f := by
            simp only [sizeJ] at hsz; omega
          exact parseValue_obj_cons f g gs rest (ihm (g :: gs) rest (by simp) hsz2)
    · intro xs rest hne hsz
      cases xs with
      | nil => exact absurd rfl hne
      | cons x xs2 =>
        cases xs2 with
        | nil =>
          have h1 : sizeJ x ≤ f := by
            simp only [sizeJList] at hsz; omega
          exact parseItems_single f x rest
            (ihv x (']' :: rest) h1 (headNotDigit_cons (by decide) rest))
        | cons y ys =>
          have h1 : sizeJ x ≤ f := by
            simp only [sizeJList] at hsz; omega
          have h2 : sizeJList (y :: ys) ≤ f := by
            simp only [sizeJList] at hsz ⊢; omega
          exact parseItems_more f x y ys rest
            (ihv x (',' :: (charsArrItems (y :: ys) ++ ']' :: rest)) h1
              (headNotDigit_cons (by decide) _))
            (ihi (y :: ys) rest (by simp) h2)
    · intro fs rest hne hsz
      cases fs with
      | nil => exact absurd rfl hne
      | cons g gs =>
        cases gs with
        | nil =>
          have h1 : sizeJ g.2 ≤ f := by
            simp only [sizeJFields] at hsz; omega
          have hm := parseMembers_single f g.1 g.2 rest
            (ihv g.2 ('}' :: rest) h1 (headNotDigit_cons (by decide) rest))
          simpa using hm
        | cons g2 gs2 =>
          have h1 : sizeJ g.2 ≤ f := by
            simp only [sizeJFields] at hsz; omega
          have h2 : sizeJFields (g2 :: gs2) ≤ f := by
            simp only [sizeJFields] at hsz ⊢; omega
          have hm := parseMembers_more f g.1 g.2 g2 gs2 rest
            (ihv g.2 (',' :: (charsObjItems (g2 :: gs2) ++ '}' :: rest)) h1
              (headNotDigit_cons (by decide) _))
            (ihm (g2 :: gs2) rest (by simp) h2)
          simpa using hm

/-- `JSON.parse` inverts `JSON.stringify` on every JSON value. -/
theorem parse_stringify (v : JSONValue) : parseJSON (stringifyCompact v) = some v := by
  have h := (parse_roundtrip_all ((charsOfJSON v).length + 1)).1 v []
    (by have := sizeJ_le_length v; omega) trivial
  rw [List.append_nil] at h
  rw [stringifyCompact, parseJSON, show (String.mk (charsOfJSON v)).data = charsOfJSON v from rfl,
    parseJSONChars, h]
  simp [skipWs]

/-! ## The default normalizer is the identity on native JSON values -/

mutual

theorem jsonOfJS_jsOfJSON : ∀ v : JSONValue, jsonOfJS (jsOfJSON v) = v
  | .null => rfl
  | .bool _ => rfl
  | .num _ => rfl
  | .str _ => rfl
  | .arr xs => by simp [jsOfJSON, jsonOfJS, jsonOfJS_jsOfJSON_list xs]
  | .obj fs => by simp [jsOfJSON, jsonOfJS, jsonOfJS_jsOfJSON_fields fs]

theorem jsonOfJS_jsOfJSON_list : ∀ xs : List JSONValue, jsonOfJSList (jsOfJSONList xs) = xs
  | [] => rfl
  | x :: xs => by
    simp [jsOfJSONList, jsonOfJSList, jsonOfJS_jsOfJSON x, jsonOfJS_jsOfJSON_list xs]

theorem jsonOfJS_jsOfJSON_fields : ∀ fs : List (String × JSONValue),
    jsonOfJSFields (jsOfJSONFields fs) = fs
  | [] => rfl
  | f :: fs => by
    simp [jsOfJSONFields, jsonOfJSFields, jsonOfJS_jsOfJSON f.2, jsonOfJS_jsOfJSON_fields fs]

end

/-- The `context` field of a built record is the normalized context. -/
theorem jfield_buildRecord_context (includeTimestamp : Bool) (ts level ns msg : String)
    (ctx : List (String × JSValue)) :
    jfield (buildRecord includeTimestamp ts level ns msg ctx) "context" =
      some (jsonOfJS (.obj ctx)) := by
  cases includeTimestamp <;> simp [buildRecord, jfield, lookupLast]

/-- C8: for a context holding only native JSON values, serializing a record
with the default formatter and normalizer and then JSON-parsing the
resulting line recovers the record exactly, and its `context` field is
structurally identical to the original context. -/
theorem c8_native_roundtrip (includeTimestamp : Bool) (ts level ns msg : String)
    (cf : List (String × JSONValue)) :
    parseJSON (formatLogDefault
        (buildRecord includeTimestamp ts level ns msg (jsOfJSONFields cf))) =
      some (buildRecord includeTimestamp ts level ns msg (jsOfJSONFields cf)) ∧
    jfield (buildRecord includeTimestamp ts level ns msg (jsOfJSONFields cf)) "context" =
      some (.obj cf) := by
  constructor
  · exact parse_stringify _
  · rw [jfield_buildRecord_context]
    simp [jsonOfJS, jsonOfJS_jsOfJSON_fields]

/-! ## Renderer claims -/

/-- C5: for every input line, if the line fails to parse as JSON, or parses
but does not satisfy the LogRecord shape check, `render` returns the
original line's content unmodified (pass-through). -/
theorem c5_passthrough (line : String)
    (h : parseJSON line = none ∨ ∃ j, parseJSON line = some j ∧ isLogObject j = false) :
    render line = line := by
  simp only [render]
  rcases h with h | ⟨j, hj, hno⟩
  · rw [h]
  · rw [hj]
    simp [hno]

/-- C5 witness: a non-JSON line passes through unchanged, and a JSON line
missing the `context` field falls back to pass-through. -/
theorem c5_passthrough_witness :
    render "plain text" = "plain text" ∧
    render "\x7b\"level\":\"info\",\"level_n\":2,\"namespace\":\"a\",\"message\":\"b\"\x7d" =
      "\x7b\"level\":\"info\",\"level_n\":2,\"namespace\":\"a\",\"message\":\"b\"\x7d" := by
  constructor
  · exact c5_passthrough _ (Or.inl rfl)
  · exact c5_passthrough _ (Or.inr ⟨_, rfl, rfl⟩)

/-- C10: the renderer's output for a valid record depends only on the
`level`, `namespace`, `message` and `context` fields: two parsed lines
agreeing on those four fields render identically, whatever their
`timestamp`, `level_n`, or other extra fields are. -/
theorem c10_timestamp_independence (line1 line2 : String) (j1 j2 : JSONValue)
    (h1 : parseJSON line1 = some j1) (h2 : parseJSON line2 = some j2)
    (hv1 : isLogObject j1 = true) (hv2 : isLogObject j2 = true)
    (hlevel : jfield j1 "level" = jfield j2 "level")
    (hns : jfield j1 "namespace" = jfield j2 "namespace")
    (hmsg : jfield j1 "message" = jfield j2 "message")
    (hctx : jfield j1 "context" = jfield j2 "context") :
    render line1 = render line2 := by
  simp only [render]
  rw [h1, h2]
  simp only [hv1, hv2, if_true]
  simp only [renderLogObject, getStrField, getCtx, hlevel, hns, hmsg, hctx]

/-- C10 witness: two concrete lines that differ in `timestamp`, in
`level_n`, and in an extra field render to the same text. -/
theorem c10_timestamp_independence_witness :
    render "\x7b\"level\":\"info\",\"level_n\":2,\"timestamp\":\"2023-01-01T00:00:00.000Z\",\"namespace\":\"a\",\"message\":\"b\",\"context\":\x7b\x7d\x7d" =
      render "\x7b\"level\":\"info\",\"level_n\":99,\"namespace\":\"a\",\"message\":\"b\",\"context\":\x7b\x7d,\"extra\":true\x7d" :=
  c10_timestamp_independence _ _ _ _ rfl rfl rfl rfl rfl rfl rfl rfl

/-- C2 as written is false in one detail: the six severity tags it lists
are 8 characters long, not 7 (`"TRACE > "` is `T R A C E space > space`). -/
theorem c2_counterexample : levelTag "trace" = "TRACE > " ∧ ("TRACE > " : String).length ≠ 7 := by
  exact ⟨rfl, by decide⟩

/-- C2 amended: for every line that parses as JSON and passes the LogRecord
shape check with a recognized level, the rendered text is the fixed-width
severity tag (one of the six exact 8-character tags, all of equal length so
they align in a column), the namespace in brackets, and the message,
followed by the context object pretty-printed as 2-space-indented JSON. -/
theorem c2_header_format (line : String) (j : JSONValue) (l ns msg : String) (ctx : JSONValue)
    (hp : parseJSON line = some j) (hv : isLogObject j = true)
    (hl : jfield j "level" = some (.str l))
    (hns : jfield j "namespace" = some (.str ns))
    (hmsg : jfield j "message" = some (.str msg))
    (hctx : jfield j "context" = some ctx)
    (_hrec : l ∈ LOG_LEVELS) :
    render line = levelTag l ++ "[" ++ ns ++ "] " ++ msg ++ "\n" ++ prettyStringify ctx ∧
    (∀ l2 ∈ LOG_LEVELS, (levelTag l2).length = 8) ∧
    levelTag "trace" = "TRACE > " ∧ levelTag "debug" = "DEBUG > " ∧
    levelTag "info" = " INFO > " ∧ levelTag "warn" = " WARN > " ∧
    levelTag "error" = "ERROR > " ∧ levelTag "fatal" = "FATAL > " := by
  refine ⟨?_, by decide, rfl, rfl, rfl, rfl, rfl, rfl⟩
  simp only [render]
  rw [hp]
  simp only [hv, if_true]
  simp only [renderLogObject, getStrField, getCtx, hl, hns, hmsg, hctx]

/-- C2 witness: a concrete error record renders with the `ERROR > ` tag,
bracketed namespace, message, and pretty-printed context. -/
theorem c2_header_format_witness :
    render "\x7b\"level\":\"error\",\"level_n\":4,\"namespace\":\"my-app.db\",\"message\":\"oops\",\"context\":\x7b\x7d\x7d" =
      levelTag "error" ++ "[" ++ "my-app.db" ++ "] " ++ "oops" ++ "\n" ++
        prettyStringify (.obj []) :=
  (c2_header_format
    "\x7b\"level\":\"error\",\"level_n\":4,\"namespace\":\"my-app.db\",\"message\":\"oops\",\"context\":\x7b\x7d\x7d"
    _ "error" "my-app.db" "oops" (.obj []) rfl rfl rfl rfl rfl rfl (by decide)).1

/-! ## Level-gating and emitter claims (modelled from the spec) -/

/-- C3: for all six recognized severities, `isEnabled(minLevel, level)` is
true iff `rank(level) >= rank(minLevel)`, the ranks are the fixed values
0..5, and `minLevel = "warn"` enables exactly {warn, error, fatal}. -/
theorem c3_level_gating :
    (∀ l1 ∈ LOG_LEVELS, ∀ l2 ∈ LOG_LEVELS,
      (isEnabled l1 l2 = true ↔ levelRank l1 ≤ levelRank l2)) ∧
    (levelRank "trace" = 0 ∧ levelRank "debug" = 1 ∧ levelRank "info" = 2 ∧
      levelRank "warn" = 3 ∧ levelRank "error" = 4 ∧ levelRank "fatal" = 5) ∧
    (∀ l2 ∈ LOG_LEVELS, (isEnabled "warn" l2 = true ↔ l2 ∈ ["warn", "error", "fatal"])) := by
  decide

/-- C3 witness: `minLevel = "warn"` enables `error` and disables `info`. -/
theorem c3_level_gating_witness :
    isEnabled "warn" "error" = true ∧ isEnabled "warn" "info" ≠ true := by
  constructor
  · exact (c3_level_gating.1 "warn" (by decide) "error" (by decide)).mpr (by decide)
  · intro h
    have := ((c3_level_gating.2.2 "info" (by decide)).mp h)
    simp at this

/-- C6: an emit call whose level is disabled by the configured minimum
writes zero output lines; an enabled call writes exactly one line. -/
theorem c6_emit_line_count (minLevel : String) (includeTimestamp : Bool)
    (ts level ns msg : String) (ctx : List (String × JSValue)) :
    (isEnabled minLevel level = true →
      (emit minLevel includeTimestamp ts level ns msg ctx).length = 1) ∧
    (isEnabled minLevel level = false →
      emit minLevel includeTimestamp ts level ns msg ctx = []) := by
  constructor <;> intro h <;> simp [emit, h]

/-- C6 witness: with `minLogLevel = "warn"`, an `error` emit writes one
line and an `info` emit writes none. -/
theorem c6_emit_line_count_witness :
    (emit "warn" false "" "error" "a" "b" []).length = 1 ∧
    emit "warn" false "" "info" "a" "b" [] = [] :=
  ⟨(c6_emit_line_count "warn" false "" "error" "a" "b" []).1 (by decide),
   (c6_emit_line_count "warn" false "" "info" "a" "b" []).2 (by decide)⟩

/-- C7: the default normalizer maps every fixed-width numeric/byte array to
the string `"<TypeName>(<elementCount>)"` — the element count, for every
kind and regardless of the elements' contents. -/
theorem c7_typed_array_tag :
    (∀ (k : TypedArrayKind) (es : List Int),
      jsonOfJS (.typedArray k es) =
        .str (taName k ++ "(" ++ intToString (es.length : Int) ++ ")")) ∧
    (∀ (k : TypedArrayKind) (es es2 : List Int), es.length = es2.length →
      jsonOfJS (.typedArray k es) = jsonOfJS (.typedArray k es2)) := by
  constructor
  · intro k es
    simp [jsonOfJS]
  · intro k es es2 h
    simp [jsonOfJS, h]

/-- C7 witness: a three-element `Int16Array` normalizes to
`"Int16Array(3)"` (the element count, not the 6-byte length), and two
`Float64Array`s of equal length normalize identically whatever their
contents. -/
theorem c7_typed_array_tag_witness :
    jsonOfJS (.typedArray .int16 [1, 2, 3]) = .str "Int16Array(3)" ∧
    jsonOfJS (.typedArray .float64 [7, 8]) = jsonOfJS (.typedArray .float64 [9, 10]) := by
  constructor
  · rw [c7_typed_array_tag.1 .int16 [1, 2, 3]]
    refine congrArg JSONValue.str ?_
    have h3 : intToString ((3 : Nat) : Int) = "3" := by
      rw [intToString, charsOfInt, if_neg (by decide), show ((3 : Nat) : Int).toNat = 3 from rfl,
        natDigits]
      decide
    rw [show (([1, 2, 3] : List Int).length : Int) = ((3 : Nat) : Int) from rfl, h3]
    decide
  · exact c7_typed_array_tag.2 .float64 [7, 8] [9, 10] rfl

/-- C9: an unrecognized configured minimum level ranks below the lowest
defined rank (so gating defaults to all levels enabled): every emit call at
any of the six severities writes its one line, and the configuration is
accepted (the model is total — nothing is rejected). -/
theorem c9_unrecognized_min_level (m : String) (hm : m ∉ LOG_LEVELS)
    (includeTimestamp : Bool) (ts ns msg : String) (ctx : List (String × JSValue)) :
    levelRank m = -1 ∧
    ∀ level ∈ LOG_LEVELS, (emit m includeTimestamp ts level ns msg ctx).length = 1 := by
  have hm6 : m ≠ "trace" ∧ m ≠ "debug" ∧ m ≠ "info" ∧ m ≠ "warn" ∧ m ≠ "error" ∧
      m ≠ "fatal" := by
    simp [LOG_LEVELS] at hm
    exact hm
  obtain ⟨g1, g2, g3, g4, g5, g6⟩ := hm6
  have hr : levelRank m = -1 := by
    rw [levelRank, if_neg g1, if_neg g2, if_neg g3, if_neg g4, if_neg g5, if_neg g6]
  refine ⟨hr, ?_⟩
  intro level hl
  have hen : isEnabled m level = true := by
    have hl6 : level = "trace" ∨ level = "debug" ∨ level = "info" ∨ level = "warn" ∨
        level = "error" ∨ level = "fatal" := by simpa [LOG_LEVELS] using hl
    rcases hl6 with rfl | rfl | rfl | rfl | rfl | rfl <;> (simp only [isEnabled]; rw [hr]; decide)
  simp [emit, hen]

/-- C9 witness: the unrecognized minimum level `"banana"` still lets a
`trace` emit write its line. -/
theorem c9_unrecognized_min_level_witness :
    (emit "banana" true "t" "trace" "a" "b" []).length = 1 :=
  (c9_unrecognized_min_level "banana" (by decide) true "t" "a" "b" []).2 "trace" (by decide)

end Logosaurus
